import Mathlib

/-!
Verification development for the aPyddit client library.

This file gives a shallow embedding, in Lean, of the core logic of the
library: the request pipeline of `HTTPClient.request` together with the
rate-limit lock and the token cache (src/apyddit/client.py), the cursor
pagination engine (src/apyddit/listings/base.py, listing.py, flair.py),
and the comment tree with its two traversal strategies
(src/apyddit/comment_tree.py, models.py).  Stateful Python methods become
pure Lean functions over explicit state records, with server responses
passed in as explicit arguments; network effects are reified as request
logs or as a Boolean flag recording whether a request was issued.
-/

namespace Apyddit

/-! ## Python value model

The request pipeline compares the `x-ratelimit-remaining` header, a string
or None, against the integer 0 (`if remaining == 0:` in
`HTTPClient.request`).  Python equality between values of different builtin
types (str vs int, None vs int) is False, which we model with a small
Python value type and its equality.
-/

inductive PyVal where
  | vNone : PyVal
  | vInt (n : Int) : PyVal
  | vStr (s : String) : PyVal
deriving DecidableEq

def pyEq : PyVal → PyVal → Bool
  | .vNone, .vNone => true
  | .vInt a, .vInt b => a == b
  | .vStr a, .vStr b => a == b
  | _, _ => false

def pyOptStr : Option String → PyVal
  | none => .vNone
  | some s => .vStr s

/-- Python `str.isdecimal` restricted to ASCII input (the model used for
rate-limit reset headers): nonempty and all digit characters. -/
def isDecimalStr (s : String) : Bool :=
  !s.isEmpty && s.toList.all (fun c => c.isDigit)

/-- Python `str.lower` restricted to ASCII input (the model used for the
token type check). -/
def strLower (s : String) : String := ⟨s.data.map Char.toLower⟩

/-! ## RateLimitLock (src/apyddit/client.py lines 12-32)

`unlock_after(timeout)` spawns a task that sleeps `timeout` seconds and
then opens the gate, but first checks `if not timeout: raise RuntimeError`.
In Python, `not timeout` is true exactly when `timeout` is None or the
integer 0; every other integer, including a negative one, is truthy.  We
model the operation as returning either the error or the scheduled action.
-/

inductive UnlockAction where
  | scheduleUnlock (delay : Int) : UnlockAction
deriving DecidableEq

def unlock_after : Option Int → Except Unit UnlockAction
  | none => .error ()
  | some n => if n == 0 then .error () else .ok (.scheduleUnlock n)

/-! ## HTTPClient.request, one loop iteration (client.py lines 82-119)

One iteration of the `while True` loop after the response arrived.  The
outcome is either: the parsed body returned to the caller; an
`HTTPException`; the `RuntimeError` escaping from `unlock_after`; or a
retry, with the gate locked and an optional scheduled reopen delay.  A
retry with no scheduled delay leaves the gate locked forever (the next
iteration blocks in `wait()`).
-/

structure HttpResponse where
  status : Nat
  remaining : Option String
  reset : Option String
  body : String
deriving DecidableEq

inductive ReqOutcome where
  | success (body : String) : ReqOutcome
  | httpError (status : Nat) : ReqOutcome
  | fatalRuntimeError : ReqOutcome
  | retryLocked (scheduled : Option Nat) : ReqOutcome
deriving DecidableEq

/-- The body of the two identical rate-limit branches of
`HTTPClient.request`: lock the gate, read `x-ratelimit-reset`, and call
`unlock_after` only when the header is present and decimal. -/
def rateLimitedBranch (resp : HttpResponse) : ReqOutcome :=
  match resp.reset with
  | some s =>
      if isDecimalStr s then
        match unlock_after (some (Int.ofNat (s.toNat?.getD 0))) with
        | .error _ => .fatalRuntimeError
        | .ok _ => .retryLocked (some (s.toNat?.getD 0))
      else .retryLocked none
  | none => .retryLocked none

def requestStep (resp : HttpResponse) : ReqOutcome :=
  if pyEq (pyOptStr resp.remaining) (.vInt 0) then rateLimitedBranch resp
  else if resp.status == 429 then rateLimitedBranch resp
  else if resp.status != 200 then .httpError resp.status
  else .success resp.body

/-! ## TokenManager (`HTTPClient._get_token`, client.py lines 61-80) -/

structure TokenState where
  token : Option String
  expires : Int
deriving DecidableEq

structure TokenResponse where
  status : Nat
  hasError : Bool
  tokenType : String
  accessToken : String
  expiresIn : Int
deriving DecidableEq

inductive TokenError where
  | httpException : TokenError
  | unsupportedTokenType : TokenError
deriving DecidableEq

structure TokenResult where
  token : String
  state : TokenState
  exchanged : Bool
deriving DecidableEq

/-- `HTTPClient._get_token`: refresh when no token is cached, `now` has
reached the stored expiry, or a refresh is forced; otherwise return the
cached token.  `exchanged` records whether a credential exchange happened. -/
def getToken (st : TokenState) (now : Int) (forceRefresh : Bool)
    (resp : TokenResponse) : Except TokenError TokenResult :=
  let doRefresh : Except TokenError TokenResult :=
    if resp.status != 200 || resp.hasError then .error .httpException
    else if strLower resp.tokenType != "bearer" then .error .unsupportedTokenType
    else .ok ⟨resp.accessToken, ⟨some resp.accessToken, now + resp.expiresIn⟩, true⟩
  match st.token with
  | none => doRefresh
  | some t =>
      if now ≥ st.expires || forceRefresh then doRefresh
      else .ok ⟨t, st, false⟩

end Apyddit

namespace Apyddit

/-- C1: the request pipeline is claimed never to hand a rate-limited
response to the caller, and to fail fatally when the reset-delay header is
absent.  The code compares the header string against the integer 0, which
is always false in Python, so a response with remaining quota "0" and
status 200 is returned to the caller; and a 429 response with no reset
header locks the gate and retries (blocking forever) instead of raising. -/
theorem requestStep_returns_rate_limited :
    requestStep ⟨200, some ("0"), none, ("payload")⟩ = .success ("payload") ∧
    requestStep ⟨429, none, none, ("payload")⟩ = .retryLocked none := by
  exact ⟨rfl, rfl⟩

/-- C7 counterexample: `unlock_after` is claimed to fail fast on every
non-positive delay, but a negative delay passes the `if not timeout` check
(only None and 0 are falsy) and is accepted. -/
theorem unlock_after_accepts_negative :
    unlock_after (some (-1)) = .ok (.scheduleUnlock (-1)) := by
  exact rfl

/-- C7 amended: a missing (None) or zero delay fails fast with an error;
every nonzero delay, including a negative one, is accepted and schedules a
reopen after that delay (a negative sleep fires immediately). -/
theorem unlock_after_spec :
    unlock_after none = .error () ∧
    unlock_after (some 0) = .error () ∧
    ∀ n : Int, n ≠ 0 → unlock_after (some n) = .ok (.scheduleUnlock n) := by
  refine ⟨rfl, rfl, ?_⟩
  intro n hn
  simp [unlock_after, hn]

/-- C7 witness: the amended specification evaluated at the delay 5. -/
theorem unlock_after_spec_witness :
    unlock_after (some 5) = .ok (.scheduleUnlock 5) :=
  unlock_after_spec.2.2 5 (by decide)

/-- C6 counterexample: the claim says a token fetched at time T with a
3600-second lifetime is returned from cache by every call up to T+3600.
With T = 0 the stored expiry is 3600, and the refresh condition is
`now >= expires`, so the call at exactly T+3600 already performs a
credential exchange. -/
theorem getToken_refreshes_at_expiry :
    getToken ⟨none, 0⟩ 0 false ⟨200, false, ("bearer"), ("tokA"), 3600⟩ =
      .ok ⟨("tokA"), ⟨some ("tokA"), 3600⟩, true⟩ ∧
    getToken ⟨some ("tokA"), 3600⟩ 3600 false ⟨200, false, ("bearer"), ("tokB"), 3600⟩ =
      .ok ⟨("tokB"), ⟨some ("tokB"), 7200⟩, true⟩ := by
  exact ⟨rfl, rfl⟩

/-- C6 amended: with a cached token expiring at T+L, every call strictly
before T+L returns the cached token with no exchange, and a call at or
after T+L (in particular at T+3600 or T+3601 for L = 3600) performs
exactly one credential exchange, storing a new expiry. -/
theorem getToken_cached_until_expiry (T L t : Int) (tok : String)
    (resp : TokenResponse) (hstatus : resp.status = 200)
    (herr : resp.hasError = false)
    (htype : strLower resp.tokenType = "bearer") :
    (t < T + L →
      getToken ⟨some tok, T + L⟩ t false resp = .ok ⟨tok, ⟨some tok, T + L⟩, false⟩) ∧
    (T + L ≤ t →
      getToken ⟨some tok, T + L⟩ t false resp =
        .ok ⟨resp.accessToken, ⟨some resp.accessToken, t + resp.expiresIn⟩, true⟩) := by
  constructor
  · intro hlt
    simp [getToken, not_le.mpr hlt]
  · intro hge
    simp [getToken, hge, hstatus, herr, htype]

/-- C6 witness: the amended specification evaluated with a token fetched
at T = 0 with lifetime 3600, at the call times 100 and 3601. -/
theorem getToken_cached_until_expiry_witness :
    getToken ⟨some ("tokA"), 0 + 3600⟩ 100 false ⟨200, false, ("bearer"), ("tokB"), 3600⟩ =
      .ok ⟨("tokA"), ⟨some ("tokA"), 0 + 3600⟩, false⟩ ∧
    getToken ⟨some ("tokA"), 0 + 3600⟩ 3601 false ⟨200, false, ("bearer"), ("tokB"), 3600⟩ =
      .ok ⟨("tokB"), ⟨some ("tokB"), 3601 + 3600⟩, true⟩ := by
  constructor
  · exact (getToken_cached_until_expiry 0 3600 100 ("tokA")
      ⟨200, false, ("bearer"), ("tokB"), 3600⟩ rfl rfl rfl).1 (by decide)
  · exact (getToken_cached_until_expiry 0 3600 3601 ("tokA")
      ⟨200, false, ("bearer"), ("tokB"), 3600⟩ rfl rfl rfl).2 (by decide)

/-! ## Paginator (`BaseListing`, src/apyddit/listings/base.py)

The listing state mirrors the attributes set in `BaseListing.__init__`:
the stored `before`/`after` cursors, the running `count`, the overall
`limit`, the `reverse` flag, the buffer (the `list` contents the class
inherits from), the class constant `_max_limit` and the `_initialized`
flag.  A buffered item is reduced to its `fullname` attribute, which is a
string for `Thing` subclasses and None for `FullnameWrapper` (flair
listings). -/

structure Item where
  fullname : Option String
deriving DecidableEq

inductive Dir where
  | back : Dir
  | init : Dir
  | fwd : Dir
deriving DecidableEq

structure ListState where
  before : Option String
  after : Option String
  count : Int
  limit : Option Int
  reverse : Bool
  buffer : List Item
  maxLimit : Int
  inited : Bool
deriving DecidableEq

structure FetchParams where
  limit : Int
  before : Option String
  after : Option String
  count : Option Int
deriving DecidableEq

/-- A generic listing endpoint response (`{data: {children, before, after,
dist}}`), with the children already parsed into buffered items. -/
structure PageResponse where
  dist : Option Int
  children : List Item
  before : Option String
  after : Option String
deriving DecidableEq

/-- The `if self.count < 0: self.count = 0` clamp at the top of
`BaseListing._fetch`. -/
def clampCount (st : ListState) : ListState :=
  if st.count < 0 then { st with count := 0 } else st

/-- The page size computation of `BaseListing._fetch`: `none` models the
early `return False` paths.  The backward branch runs on direction -1 or
on initialization with `reverse`; the forward branch on direction 1 or on
initialization without `reverse`. -/
def pageSize (st : ListState) (dir : Dir) : Option Int :=
  match st.limit with
  | none => some st.maxLimit
  | some l =>
    if dir = .back ∨ (dir = .init ∧ st.reverse = true) then
      if st.count ≤ 0 then none
      else some (min (min st.count l) st.maxLimit)
    else
      if st.count ≥ l then none
      else some (min (l - st.count) st.maxLimit)

/-- `self[-1 if ...]` / `self[0 if ...]`: the buffered item whose fullname
seeds a derived cursor. -/
def derivedItem (st : ListState) (takeLast : Bool) : Option Item :=
  if takeLast then st.buffer.getLast? else st.buffer.head?

/-- The `before`/`after` parameter assembly of `BaseListing._fetch`, given
the already computed page size `lim`.  `none` models the `return False`
paths (stored cursor absent and not derivable).  A derived fullname that
is None or empty (falsy in Python) also returns False. -/
def cursorParams (st : ListState) (dir : Dir) (lim : Int) : Option FetchParams :=
  let beforeRes : Option (Option String) :=
    if dir = .fwd then some none
    else
      match st.before with
      | some b => some (some b)
      | none =>
        if st.limit = none ∧ st.buffer ≠ [] then
          match derivedItem st st.reverse with
          | some it =>
            match it.fullname with
            | some s => if s = "" then none else some (some s)
            | none => none
          | none => none
        else if dir = .init then some none
        else none
  match beforeRes with
  | none => none
  | some beforeParam =>
    let afterRes : Option (Option String) :=
      if dir = .back then some none
      else
        match st.after with
        | some a => some (some a)
        | none =>
          if st.limit = none ∧ st.buffer ≠ [] then
            match derivedItem st (!st.reverse) with
            | some it =>
              match it.fullname with
              | some s => if s = "" then none else some (some s)
              | none => none
            | none => none
          else if dir = .init then some none
          else none
    match afterRes with
    | none => none
    | some afterParam =>
      some ⟨lim, beforeParam, afterParam,
        if st.count ≠ 0 then some st.count else none⟩

/-- The parameter-building phase of `BaseListing._fetch` (after the count
clamp): page size, `limit <= 0` check, then cursor parameters. -/
def prepare (st : ListState) (dir : Dir) : Option FetchParams :=
  match pageSize st dir with
  | none => none
  | some lim => if lim ≤ 0 then none else cursorParams st dir lim

/-- `Listing._update_data` (src/apyddit/listings/listing.py): update
`count` from `dist` (`data.get("dist") or 0`), store the response cursors,
and replace the buffer wholesale when the page is nonempty; an empty page
leaves the buffer untouched and reports no continuation. -/
def updateListing (st : ListState) (dir : Dir) (resp : PageResponse) :
    Bool × ListState :=
  let dist := resp.dist.getD 0
  let newCount : Int :=
    match dir with
    | .fwd => st.count + dist
    | .back => st.count - dist
    | .init => if st.reverse then st.count - dist else st.count + dist
  let st2 := { st with count := newCount, before := resp.before, after := resp.after }
  if resp.children ≠ [] then
    (true,
      { st2 with buffer := if st2.reverse then resp.children.reverse else resp.children })
  else (false, st2)

/-- A flair listing endpoint response (`{users, next, prev}`), with the
user/flair pairs already parsed into buffered items. -/
structure FlairResponse where
  users : List Item
  prev : Option String
  next : Option String
deriving DecidableEq

/-- `FlairListing._update_data` (src/apyddit/listings/flair.py): `dist` is
the length of `users`; the buffer is replaced with the wrapped pairs (no
reversal) when nonempty. -/
def updateFlair (st : ListState) (dir : Dir) (resp : FlairResponse) :
    Bool × ListState :=
  let dist : Int := resp.users.length
  let newCount : Int :=
    match dir with
    | .fwd => st.count + dist
    | .back => st.count - dist
    | .init => if st.reverse then st.count - dist else st.count + dist
  let st2 := { st with count := newCount, before := resp.prev, after := resp.next }
  if dist ≠ 0 then (true, { st2 with buffer := resp.users })
  else (false, st2)

structure FetchResult where
  canContinue : Bool
  state : ListState
  requested : Bool
deriving DecidableEq

/-- One call of `BaseListing._fetch` for the generic `Listing` subclass:
clamp the count, build parameters (returning False without a request when
that fails), otherwise issue the request — the response is the argument —
and run `_update_data`.  `requested` records whether the injected fetch
method was called. -/
def fetchL (st : ListState) (dir : Dir) (resp : PageResponse) : FetchResult :=
  let st1 := clampCount st
  match prepare st1 dir with
  | none => ⟨false, st1, false⟩
  | some _ =>
    let r := updateListing st1 dir resp
    ⟨r.1, r.2, true⟩

inductive ListingError where
  | notInited : ListingError
deriving DecidableEq

/-- `BaseListing.next`: raises unless the listing is initialized, then
fetches in direction 1. -/
def nextOp (st : ListState) (resp : PageResponse) :
    Except ListingError FetchResult :=
  if st.inited then .ok (fetchL st .fwd resp) else .error .notInited

/-- `BaseListing.prev`: raises unless the listing is initialized, then
fetches in direction -1. -/
def prevOp (st : ListState) (resp : PageResponse) :
    Except ListingError FetchResult :=
  if st.inited then .ok (fetchL st .back resp) else .error .notInited

/-- `BaseListing.__init__` with no explicit `count` keyword: assume
`limit` when both a limit is set and `reverse` is requested, else 0.
With an explicit count argument, store it as given. -/
def initState (before after : Option String) (reverse : Bool)
    (limit : Option Int) (countArg : Option Int) (maxLimit : Int) : ListState :=
  let count : Int :=
    match countArg with
    | some c => c
    | none =>
      match limit with
      | some l => if reverse then l else 0
      | none => 0
  ⟨before, after, count, limit, reverse, [], maxLimit, false⟩

/-- `BaseListing._initialize`: on the first call, set the flag and fetch
with direction 0; later calls do nothing.  The Boolean records whether a
fetch ran. -/
def initOp (st : ListState) (resp : PageResponse) : ListState × Bool :=
  if st.inited then (st, false)
  else ((fetchL { st with inited := true } .init resp).state, true)

/-- C9: with no explicit count argument, a listing constructed with a
configured limit and `reverse` starts with count equal to the limit; any
other construction without an explicit count starts with count 0. -/
theorem initState_count_spec (before after : Option String) (reverse : Bool)
    (limit : Option Int) (maxL : Int) :
    (∀ l : Int, limit = some l → reverse = true →
      (initState before after reverse limit none maxL).count = l) ∧
    ((reverse = false ∨ limit = none) →
      (initState before after reverse limit none maxL).count = 0) := by
  constructor
  · intro l hl hr
    subst hl; subst hr
    simp [initState]
  · rintro (h | h)
    · subst h; cases limit <;> simp [initState]
    · subst h; simp [initState]

/-- C9 witness: reverse with limit 7 starts at count 7; without reverse
the count starts at 0. -/
theorem initState_count_spec_witness :
    (initState none none true (some 7) none 100).count = 7 ∧
    (initState none none false (some 7) none 100).count = 0 :=
  ⟨(initState_count_spec none none true (some 7) 100).1 7 rfl rfl,
   (initState_count_spec none none false (some 7) 100).2 (Or.inl rfl)⟩

/-! ### A concrete unbounded-listing trace

An initialized listing with no configured limit whose first page holds one
item with fullname "t3_a", followed by next() calls that receive empty
pages with no cursors. -/

def c2state0 : ListState := { initState none none false none none 100 with inited := true }

def c2respA : PageResponse := ⟨some 1, [⟨some ("t3_a")⟩], none, none⟩

def c2state1 : ListState := (fetchL c2state0 .init c2respA).state

def c2respEmpty : PageResponse := ⟨some 0, [], none, none⟩

def c2r1 : FetchResult := fetchL c2state1 .fwd c2respEmpty

/-- C2 counterexample: after a next() whose fetch reports no continuation
(an empty page), a further next() in the same direction still issues a
network request — the stale buffer supplies a derived `after` cursor when
no limit is configured. -/
theorem next_requests_after_no_continuation :
    nextOp c2state1 c2respEmpty = .ok c2r1 ∧
    c2r1.canContinue = false ∧
    nextOp c2r1.state c2respEmpty = .ok (fetchL c2r1.state .fwd c2respEmpty) ∧
    (fetchL c2r1.state .fwd c2respEmpty).requested = true := by
  refine ⟨rfl, by decide, rfl, by decide⟩

/-- C8 counterexample: a completed fetch (a request was issued) that
returns an empty page leaves the previous buffer in place, so the buffer
does not equal the page returned by that fetch. -/
theorem buffer_kept_after_empty_page :
    (fetchL c2state1 .fwd c2respEmpty).requested = true ∧
    c2respEmpty.children = [] ∧
    (fetchL c2state1 .fwd c2respEmpty).state.buffer = [⟨some ("t3_a")⟩] := by
  refine ⟨by decide, rfl, by decide⟩

/-- C8 amended: a fetch completing with a nonempty page replaces the
buffer wholesale with exactly that page (reversed when `reverse` is set;
for flair listings, the user/flair pairs in page order); a fetch
completing with an empty page leaves the previous buffer unchanged.  The
buffer therefore never mixes items of two pages. -/
theorem update_replaces_buffer (st : ListState) (d : Dir) (resp : PageResponse)
    (fresp : FlairResponse) :
    (resp.children ≠ [] → (updateListing st d resp).2.buffer =
        if st.reverse then resp.children.reverse else resp.children) ∧
    (resp.children = [] → (updateListing st d resp).2.buffer = st.buffer) ∧
    (fresp.users ≠ [] → (updateFlair st d fresp).2.buffer = fresp.users) ∧
    (fresp.users = [] → (updateFlair st d fresp).2.buffer = st.buffer) := by
  refine ⟨?_, ?_, ?_, ?_⟩ <;> intro h <;> simp [updateListing, updateFlair, h]

/-- C8 witness: the amended buffer behavior evaluated on the concrete
trace, for a nonempty page, an empty page, and flair pages. -/
theorem update_replaces_buffer_witness :
    ((updateListing c2state1 .fwd c2respA).2.buffer =
      if c2state1.reverse then c2respA.children.reverse else c2respA.children) ∧
    ((updateListing c2state1 .fwd c2respEmpty).2.buffer = c2state1.buffer) ∧
    ((updateFlair c2state1 .fwd ⟨[⟨none⟩], none, none⟩).2.buffer = [⟨none⟩]) ∧
    ((updateFlair c2state1 .fwd ⟨[], none, none⟩).2.buffer = c2state1.buffer) :=
  ⟨(update_replaces_buffer c2state1 .fwd c2respA ⟨[⟨none⟩], none, none⟩).1 (by decide),
   (update_replaces_buffer c2state1 .fwd c2respEmpty ⟨[⟨none⟩], none, none⟩).2.1 rfl,
   (update_replaces_buffer c2state1 .fwd c2respA ⟨[⟨none⟩], none, none⟩).2.2.1 (by decide),
   (update_replaces_buffer c2state1 .fwd c2respA ⟨[], none, none⟩).2.2.2 rfl⟩

/-! ### Latching of the no-continuation signal (C2, amended)

With a configured limit the derived-cursor branch is skipped, so after a
fetch reports no continuation the relevant state (count and the stored
same-direction cursor) blocks every later fetch in that direction, as
long as responses are well formed: `dist` matches the page length and an
empty page carries no cursors. -/

def respDist (resp : PageResponse) : Int := resp.dist.getD 0

def wfResp (resp : PageResponse) : Prop :=
  respDist resp = resp.children.length ∧
  (resp.children = [] → resp.before = none ∧ resp.after = none)

/-- Repeated `_fetch` calls in one fixed direction, one response per call. -/
def runSameDir (d : Dir) : ListState → List PageResponse → List FetchResult
  | _, [] => []
  | st, r :: rs =>
    let f := fetchL st d r
    f :: runSameDir d f.state rs

theorem clampCount_count_nonneg (st : ListState) : 0 ≤ (clampCount st).count := by
  unfold clampCount
  split
  · simp
  · omega

theorem clampCount_of_nonneg (st : ListState) (h : 0 ≤ st.count) :
    clampCount st = st := by
  unfold clampCount
  split
  · omega
  · rfl

theorem clampCount_idem (st : ListState) :
    clampCount (clampCount st) = clampCount st :=
  clampCount_of_nonneg _ (clampCount_count_nonneg st)

theorem fetchL_noRequest (st : ListState) (d : Dir) (r : PageResponse)
    (h : prepare (clampCount st) d = none) :
    fetchL st d r = ⟨false, clampCount st, false⟩ := by
  simp [fetchL, h]

theorem prepare_none_fwd (st : ListState) (l : Int) (hlim : st.limit = some l)
    (hafter : st.after = none) : prepare st .fwd = none := by
  unfold prepare pageSize cursorParams
  rw [hlim, hafter]
  simp
  split <;> rfl

theorem prepare_none_back (st : ListState) (l : Int) (hlim : st.limit = some l)
    (hbefore : st.before = none) : prepare st .back = none := by
  unfold prepare pageSize cursorParams
  rw [hlim, hbefore]
  simp
  split <;> rfl

theorem updateListing_continue (st : ListState) (d : Dir) (resp : PageResponse) :
    (updateListing st d resp).1 = true ↔ resp.children ≠ [] := by
  rcases eq_or_ne resp.children ([] : List Item) with h | h <;>
    simp [updateListing, h]

theorem updateListing_state_empty (st : ListState) (d : Dir) (resp : PageResponse)
    (h : resp.children = []) (hwf : wfResp resp) :
    (updateListing st d resp).2 = { st with before := none, after := none } := by
  obtain ⟨hd, hc⟩ := hwf
  obtain ⟨hb, ha⟩ := hc h
  have hdist : resp.dist.getD 0 = 0 := by
    have : respDist resp = 0 := by rw [hd, h]; rfl
    exact this
  unfold updateListing
  rw [h, hb, ha, hdist]
  cases d <;> simp

theorem false_fetch_stuck (st : ListState) (l : Int) (d : Dir)
    (resp : PageResponse) (hlim : st.limit = some l)
    (hd : d = .fwd ∨ d = .back) (hwf : wfResp resp)
    (hfalse : (fetchL st d resp).canContinue = false) :
    prepare (clampCount ((fetchL st d resp).state)) d = none := by
  unfold fetchL at hfalse ⊢
  cases hp : prepare (clampCount st) d with
  | none =>
    simp only [hp]
    rw [clampCount_idem]
    exact hp
  | some p =>
    simp only [hp] at hfalse ⊢
    have hchildren : resp.children = [] := by
      by_contra hne
      have := (updateListing_continue (clampCount st) d resp).mpr hne
      simp [this] at hfalse
    have hst2 : (updateListing (clampCount st) d resp).2 =
        { clampCount st with before := none, after := none } :=
      updateListing_state_empty _ d resp hchildren hwf
    rw [hst2]
    have hnn : (0 : Int) ≤ ({ clampCount st with before := none, after := none } : ListState).count :=
      clampCount_count_nonneg st
    rw [clampCount_of_nonneg _ hnn]
    have hlim2 : ({ clampCount st with before := none, after := none } : ListState).limit = some l := by
      show (clampCount st).limit = some l
      unfold clampCount
      split <;> exact hlim
    rcases hd with h | h <;> subst h
    · exact prepare_none_fwd _ l hlim2 rfl
    · exact prepare_none_back _ l hlim2 rfl

theorem stuck_run (d : Dir) (rs : List PageResponse) :
    ∀ st0, prepare (clampCount st0) d = none →
      ∀ f ∈ runSameDir d st0 rs, f.canContinue = false ∧ f.requested = false := by
  induction rs with
  | nil =>
    intro st0 _ f hf
    simp [runSameDir] at hf
  | cons r rs ih =>
    intro st0 h f hf
    have hr : fetchL st0 d r = ⟨false, clampCount st0, false⟩ :=
      fetchL_noRequest st0 d r h
    simp only [runSameDir, hr, List.mem_cons] at hf
    rcases hf with hf | hf
    · subst hf; exact ⟨rfl, rfl⟩
    · refine ih (clampCount st0) ?_ f hf
      rw [clampCount_idem]
      exact h

/-- C2 amended: once a fetch in a given direction reports no continuation,
every later next()/prev() call in that same direction also reports no
continuation and issues no request, provided the listing has a configured
limit and responses are well formed (an empty page carries no cursors and
`dist` matches the page length).  Without a configured limit the stale
buffer can supply a derived cursor and further requests are issued (see
the counterexample). -/
theorem no_continuation_latches (st : ListState) (l : Int) (d : Dir)
    (resp : PageResponse) (rs : List PageResponse)
    (hlim : st.limit = some l) (hd : d = .fwd ∨ d = .back) (hwf : wfResp resp)
    (hfalse : (fetchL st d resp).canContinue = false) :
    ∀ f ∈ runSameDir d (fetchL st d resp).state rs,
      f.canContinue = false ∧ f.requested = false :=
  stuck_run d rs _ (false_fetch_stuck st l d resp hlim hd hwf hfalse)

def w2st : ListState := { initState none none false (some 10) none 100 with inited := true }

def w2r : FetchResult := fetchL w2st .fwd c2respEmpty

/-- C2 witness: with limit 10 and no stored `after` cursor, a next() call
reports no continuation, and the following next() call again reports no
continuation without issuing a request. -/
theorem no_continuation_latches_witness :
    (fetchL w2r.state .fwd c2respEmpty).canContinue = false ∧
    (fetchL w2r.state .fwd c2respEmpty).requested = false := by
  have hm : fetchL w2r.state .fwd c2respEmpty ∈
      runSameDir .fwd w2r.state [c2respEmpty] := by
    simp [runSameDir]
  exact no_continuation_latches w2st 10 .fwd c2respEmpty [c2respEmpty] rfl
    (Or.inl rfl) (by constructor <;> decide) (by decide) _ hm

/-! ### Count bounds (C3)

The invariant `0 ≤ count ≤ limit` over every state reachable from an
initialized listing by next()/prev() calls, assuming each response
reports a `dist` between 0 and the page size that was requested. -/

/-- The server honours the requested page size: whenever the fetch issues
a request with parameters `p`, the reported `dist` lies in `[0, p.limit]`. -/
def goodResp (st : ListState) (dir : Dir) (resp : PageResponse) : Prop :=
  ∀ p, prepare (clampCount st) dir = some p →
    0 ≤ respDist resp ∧ respDist resp ≤ p.limit

/-- States reachable for a listing with configured limit `l`, constructed
with no explicit count: initialization followed by any sequence of
next()/prev() calls with compliant responses. -/
inductive ReachedL (l : Int) : ListState → Prop where
  | started (before after : Option String) (reverse : Bool) (maxL : Int)
      (resp : PageResponse)
      (h : goodResp { initState before after reverse (some l) none maxL with inited := true } .init resp) :
      ReachedL l ((fetchL { initState before after reverse (some l) none maxL with inited := true } .init resp).state)
  | stepNext (st : ListState) (resp : PageResponse) (hst : ReachedL l st)
      (h : goodResp st .fwd resp) :
      ReachedL l ((fetchL st .fwd resp).state)
  | stepPrev (st : ListState) (resp : PageResponse) (hst : ReachedL l st)
      (h : goodResp st .back resp) :
      ReachedL l ((fetchL st .back resp).state)

theorem cursorParams_limit (st : ListState) (dir : Dir) (lim : Int)
    (p : FetchParams) (h : cursorParams st dir lim = some p) : p.limit = lim := by
  unfold cursorParams at h
  repeat' split at h
  all_goals try cases h
  all_goals rfl

theorem prepare_some_inv (st : ListState) (dir : Dir) (p : FetchParams)
    (hp : prepare st dir = some p) :
    ∃ lim, pageSize st dir = some lim ∧ ¬lim ≤ 0 ∧ p.limit = lim := by
  unfold prepare at hp
  split at hp
  · cases hp
  · rename_i lim heq
    by_cases hle : lim ≤ 0
    · rw [if_pos hle] at hp; cases hp
    · rw [if_neg hle] at hp
      exact ⟨lim, heq, hle, cursorParams_limit st dir lim p hp⟩

theorem pageSize_bounds (st : ListState) (l lim : Int) (dir : Dir)
    (hlim : st.limit = some l) (h : pageSize st dir = some lim) :
    (dir = .back ∨ (dir = .init ∧ st.reverse = true) →
        0 < st.count ∧ lim ≤ st.count) ∧
    (dir = .fwd ∨ (dir = .init ∧ st.reverse = false) →
        st.count < l ∧ lim ≤ l - st.count) := by
  have hrw : pageSize st dir =
      if dir = .back ∨ (dir = .init ∧ st.reverse = true) then
        if st.count ≤ 0 then none
        else some (min (min st.count l) st.maxLimit)
      else
        if st.count ≥ l then none
        else some (min (l - st.count) st.maxLimit) := by
    unfold pageSize
    rw [hlim]
  rw [hrw] at h
  · by_cases hc : dir = .back ∨ (dir = .init ∧ st.reverse = true)
    · rw [if_pos hc] at h
      by_cases hz : st.count ≤ 0
      · rw [if_pos hz] at h; cases h
      · rw [if_neg hz] at h
        have hlv := Option.some.inj h
        constructor
        · intro _
          have h1 := min_le_left (min st.count l) st.maxLimit
          have h2 := min_le_left st.count l
          omega
        · intro h2
          rcases hc with hc | ⟨hc, hr⟩ <;> rcases h2 with h2 | ⟨h2, hr2⟩ <;> simp_all
    · rw [if_neg hc] at h
      by_cases hz : st.count ≥ l
      · rw [if_pos hz] at h; cases h
      · rw [if_neg hz] at h
        have hlv := Option.some.inj h
        constructor
        · intro h2
          exact absurd h2 hc
        · intro _
          have h1 := min_le_left (l - st.count) st.maxLimit
          omega

theorem updateListing_limit (st : ListState) (d : Dir) (resp : PageResponse) :
    (updateListing st d resp).2.limit = st.limit := by
  rcases eq_or_ne resp.children ([] : List Item) with h | h <;>
    simp [updateListing, h]

theorem updateListing_count (st : ListState) (d : Dir) (resp : PageResponse) :
    (updateListing st d resp).2.count =
      match d with
      | .fwd => st.count + respDist resp
      | .back => st.count - respDist resp
      | .init =>
          if st.reverse then st.count - respDist resp
          else st.count + respDist resp := by
  rcases eq_or_ne resp.children ([] : List Item) with h | h <;>
    cases d <;> simp [updateListing, respDist, h]

theorem fetchL_eq (st : ListState) (d : Dir) (r : PageResponse) :
    fetchL st d r =
      match prepare (clampCount st) d with
      | none => ⟨false, clampCount st, false⟩
      | some _ =>
          ⟨(updateListing (clampCount st) d r).1,
           (updateListing (clampCount st) d r).2, true⟩ := by
  unfold fetchL
  rfl

theorem fetch_preserves_inv (l : Int) (st : ListState) (dir : Dir)
    (resp : PageResponse) (hlim : st.limit = some l) (h0 : 0 ≤ st.count)
    (h1 : st.count ≤ l) (hg : goodResp st dir resp) :
    (fetchL st dir resp).state.limit = some l ∧
    0 ≤ (fetchL st dir resp).state.count ∧
    (fetchL st dir resp).state.count ≤ l := by
  have hcl : clampCount st = st := clampCount_of_nonneg st h0
  rw [fetchL_eq, hcl]
  cases hp : prepare st dir with
  | none =>
    exact ⟨hlim, h0, h1⟩
  | some p =>
    have hdg := hg p (by rw [hcl]; exact hp)
    obtain ⟨hd0, hdl⟩ := hdg
    obtain ⟨lim, hps, hpos, hplim⟩ := prepare_some_inv st dir p hp
    have hb := pageSize_bounds st l lim dir hlim hps
    show (updateListing st dir resp).2.limit = some l ∧
      0 ≤ (updateListing st dir resp).2.count ∧
      (updateListing st dir resp).2.count ≤ l
    rw [updateListing_limit, updateListing_count]
    refine ⟨hlim, ?_⟩
    rw [hplim] at hdl
    cases dir with
    | fwd =>
      obtain ⟨hlt, hle⟩ := hb.2 (Or.inl rfl)
      simp only
      omega
    | back =>
      obtain ⟨hlt, hle⟩ := hb.1 (Or.inl rfl)
      simp only
      omega
    | init =>
      simp only
      cases hrev : st.reverse with
      | true =>
        obtain ⟨hlt, hle⟩ := hb.1 (Or.inr ⟨rfl, hrev⟩)
        rw [if_pos rfl]
        omega
      | false =>
        obtain ⟨hlt, hle⟩ := hb.2 (Or.inr ⟨rfl, hrev⟩)
        rw [if_neg (by decide : ¬false = true)]
        omega

/-- C3: for a listing with configured nonnegative limit `l`, built with no
explicit count, every state reachable by initialization followed by any
sequence of next()/prev() calls keeps the count within `[0, l]`, provided
the server reports a `dist` between 0 and the requested page size. -/
theorem listing_count_bounds (l : Int) (hl : 0 ≤ l) (st : ListState)
    (h : ReachedL l st) : 0 ≤ st.count ∧ st.count ≤ l := by
  have key : ∀ s, ReachedL l s → s.limit = some l ∧ 0 ≤ s.count ∧ s.count ≤ l := by
    intro s hs
    induction hs with
    | started before after reverse maxL resp hg =>
      refine fetch_preserves_inv l _ .init resp rfl ?_ ?_ hg
      · show (0 : Int) ≤ (initState before after reverse (some l) none maxL).count
        simp [initState]
        split <;> omega
      · show (initState before after reverse (some l) none maxL).count ≤ l
        simp [initState]
        split <;> omega
    | stepNext st0 resp hst hg ih =>
      exact fetch_preserves_inv l st0 .fwd resp ih.1 ih.2.1 ih.2.2 hg
    | stepPrev st0 resp hst hg ih =>
      exact fetch_preserves_inv l st0 .back resp ih.1 ih.2.1 ih.2.2 hg
  exact ⟨(key st h).2.1, (key st h).2.2⟩

def c3respW : PageResponse := ⟨some 5, [⟨some ("t3_b")⟩], none, some ("t3_b")⟩

def c3stW : ListState :=
  (fetchL { initState none none false (some 10) none 100 with inited := true } .init c3respW).state

/-- C3 witness: the bound evaluated after a concrete initial fetch of 5
items against a limit of 10. -/
theorem listing_count_bounds_witness : 0 ≤ c3stW.count ∧ c3stW.count ≤ 10 := by
  apply listing_count_bounds 10 (by decide)
  apply ReachedL.started none none false 100 c3respW
  intro p hp
  rw [show prepare (clampCount { initState none none false (some 10) none 100 with inited := true }) .init = some ⟨10, none, none, none⟩ from rfl] at hp
  cases hp
  decide

/-! ## Comment tree (src/apyddit/comment_tree.py, models.py)

A node is either a `Comment`, identified here by a numeric id and carrying
its reply sequence, or a `More` stub carrying the referenced child ids and
its own id (`More.__init__` stores `children` and `count`; it never
assigns a `depth` attribute, which matters below).  Comments are compared
by object identity in a traversal, modelled by distinct ids. -/

inductive CNode where
  | comment (cid : Nat) (replies : List CNode) : CNode
  | more (children : List String) (ident : String) : CNode

mutual

def sizeN : CNode → Nat
  | .comment _ replies => 1 + sizeL replies
  | .more _ _ => 1

def sizeL : List CNode → Nat
  | [] => 0
  | n :: t => sizeN n + sizeL t

end

/-- `_BacktrackableTreeIterator`: a sibling sequence plus the position
`_i` of the next node to hand out. -/
structure TreeIter where
  lst : List CNode
  i : Nat

inductive Mode where
  | df : Mode
  | bf : Mode
deriving DecidableEq

/-- `CommentIterator.__anext__` fails on a `More` stub: it evaluates
`c.depth < self._max_depth`, but `More.__init__` never sets a `depth`
attribute, so the access raises AttributeError. -/
inductive TravError where
  | attributeError : TravError
deriving DecidableEq

/-- `len(self._queue) < self._max_depth` with `inf` as the default. -/
def ltMaxDepth (n : Nat) (maxDepth : Option Nat) : Bool :=
  match maxDepth with
  | none => true
  | some d => n < d

def iterMeasure (t : TreeIter) : Nat := sizeL (t.lst.drop t.i)

def qMeasure (queue : List TreeIter) : Nat := (queue.map iterMeasure).sum

theorem sizeN_pos (n : CNode) : 1 ≤ sizeN n := by
  cases n <;> simp [sizeN]

theorem sizeL_cons (n : CNode) (t : List CNode) :
    sizeL (n :: t) = sizeN n + sizeL t := by
  simp [sizeL]

theorem drop_get?_cons {α : Type} (l : List α) (i : Nat) (x : α)
    (h : l.get? i = some x) : l.drop i = x :: l.drop (i + 1) := by
  induction l generalizing i with
  | nil => simp at h
  | cons a t ih =>
    cases i with
    | zero =>
      simp at h
      subst h
      simp
    | succ n =>
      simp only [List.get?] at h
      simp only [List.drop]
      exact ih n h

theorem qMeasure_append (q : List TreeIter) (x : TreeIter) :
    qMeasure (q ++ [x]) = qMeasure q + iterMeasure x := by
  simp [qMeasure]

theorem qMeasure_cons (x : TreeIter) (q : List TreeIter) :
    qMeasure (x :: q) = iterMeasure x + qMeasure q := by
  simp [qMeasure]

theorem getLast?_decomp {α : Type} (l : List α) (x : α)
    (h : l.getLast? = some x) : l = l.dropLast ++ [x] := by
  cases l with
  | nil => simp at h
  | cons a t =>
    have hne : a :: t ≠ [] := by simp
    rw [List.getLast?_eq_getLast _ hne] at h
    have := Option.some.inj h
    rw [← this]
    exact (List.dropLast_append_getLast hne).symm

/-- One comment-tree traversal (`CommentIterator`), collecting the visited
comment ids.  The deque `_queue` is modelled as a list whose head is its
left end: depth-first pushes the saved cursor on the right and pops from
the right (a stack); breadth-first pushes reply cursors on the left and
pops from the right (a queue).  Handing out a `Comment` first lets the
subclass handler move the reply sequence into `_queue`/`_current`, then
yields the comment.  Handing out a `More` evaluates `c.depth`, which no
`More` object has, so the traversal stops with AttributeError. -/
def traverse (mode : Mode) (maxDepth : Option Nat) (cur : TreeIter)
    (queue : List TreeIter) : Except TravError (List Nat) :=
  match hcur : cur.lst.get? cur.i with
  | none =>
    match hq : queue.getLast? with
    | none => .ok []
    | some q => traverse mode maxDepth q queue.dropLast
  | some (.comment cid replies) =>
    if hbranch : replies.isEmpty = false ∧ ltMaxDepth queue.length maxDepth = true then
      match mode with
      | .df =>
        (traverse mode maxDepth ⟨replies, 0⟩
          (queue ++ [⟨cur.lst, cur.i + 1⟩])).map (fun v => cid :: v)
      | .bf =>
        (traverse mode maxDepth ⟨cur.lst, cur.i + 1⟩
          (⟨replies, 0⟩ :: queue)).map (fun v => cid :: v)
    else
      (traverse mode maxDepth ⟨cur.lst, cur.i + 1⟩ queue).map (fun v => cid :: v)
  | some (.more _ _) => .error .attributeError
termination_by 2 * (iterMeasure cur + qMeasure queue) + queue.length
decreasing_by
  · have h1 : iterMeasure cur = 0 := by
      unfold iterMeasure
      have hle : cur.lst.length ≤ cur.i := by
        by_contra hlt
        push_neg at hlt
        rw [List.get?_eq_get hlt] at hcur
        cases hcur
      rw [List.drop_eq_nil_of_le hle]
      rfl
    have h2 : queue = queue.dropLast ++ [q] := getLast?_decomp queue q hq
    have h3 : qMeasure queue = qMeasure queue.dropLast + iterMeasure q := by
      conv_lhs => rw [h2]
      rw [qMeasure_append]
    have h4 : queue.length = queue.dropLast.length + 1 := by
      conv_lhs => rw [h2]
      simp
    omega
  · have h1 : iterMeasure cur =
        sizeN (.comment cid replies) + sizeL (cur.lst.drop (cur.i + 1)) := by
      unfold iterMeasure
      rw [drop_get?_cons cur.lst cur.i _ hcur, sizeL_cons]
    rw [qMeasure_append]
    simp only [iterMeasure, List.drop, List.length_append, List.length_cons,
      List.length_nil, sizeN] at h1 ⊢
    omega
  · have h1 : iterMeasure cur =
        sizeN (.comment cid replies) + sizeL (cur.lst.drop (cur.i + 1)) := by
      unfold iterMeasure
      rw [drop_get?_cons cur.lst cur.i _ hcur, sizeL_cons]
    rw [qMeasure_cons]
    simp only [iterMeasure, List.drop, List.length_cons, sizeN] at h1 ⊢
    omega
  · have h1 : iterMeasure cur =
        sizeN (.comment cid replies) + sizeL (cur.lst.drop (cur.i + 1)) := by
      unfold iterMeasure
      rw [drop_get?_cons cur.lst cur.i _ hcur, sizeL_cons]
    have h2 := sizeN_pos (.comment cid replies)
    simp only [iterMeasure, sizeN] at h1 h2 ⊢
    omega

/-- `CommentTree.depth_first` / `DepthFirstCommentIterator` driven to
completion, with `math.inf` modelled as `none`. -/
def depthFirst (maxDepth : Option Nat) (tree : List CNode) :
    Except TravError (List Nat) :=
  traverse .df maxDepth ⟨tree, 0⟩ []

/-- `CommentTree.breadth_first` / `BreadthFirstCommentIterator` driven to
completion. -/
def breadthFirst (maxDepth : Option Nat) (tree : List CNode) :
    Except TravError (List Nat) :=
  traverse .bf maxDepth ⟨tree, 0⟩ []

def c4tree : List CNode := [.comment 1 [], .more [("a"), ("b")] ("m1")]

/-- C4: on a tree holding a `More` stub, both traversals raise
AttributeError when they reach the stub (after visiting comment 1),
because `CommentIterator.__anext__` reads `c.depth` and `More.__init__`
never assigns a `depth` attribute; the expansion and splice never run. -/
theorem traversal_fails_on_more_stub :
    depthFirst none c4tree = .error .attributeError ∧
    breadthFirst none c4tree = .error .attributeError := by
  constructor <;>
    simp [depthFirst, breadthFirst, c4tree, traverse, ltMaxDepth, Except.map]

/-! ## More stub expansion (`More._fetch`, src/apyddit/models.py) -/

inductive MoreReq where
  | getMoreChildren (postId : String) (children : List String) : MoreReq
  | getComment (postId : String) (commentId : String) : MoreReq
deriving DecidableEq

/-- `More._fetch`: with referenced children, batch-fetch exactly those
through `get_more_children`; with the "continue thread" sentinel id `_`,
fetch the parent comment and return its reply subtree; otherwise return
the empty list with no request.  The parsing of the response payloads into
nodes is abstracted into the oracle arguments `moreNodes` and
`commentReplies`; the request log is returned alongside. -/
def more_fetch (children : List String) (ident postId parentId : String)
    (moreNodes commentReplies : List CNode) : List CNode × List MoreReq :=
  if children ≠ [] then
    (moreNodes, [.getMoreChildren postId children])
  else if ident = "_" then
    (commentReplies, [.getComment postId parentId])
  else
    ([], [])

/-- C10: a `More` stub with an empty referenced-children list whose id is
not the continue-thread sentinel expands to the empty node list without
issuing any request. -/
theorem more_fetch_empty (children : List String)
    (ident postId parentId : String) (moreNodes commentReplies : List CNode)
    (h1 : children = []) (h2 : ident ≠ "_") :
    more_fetch children ident postId parentId moreNodes commentReplies =
      ([], []) := by
  simp [more_fetch, h1, h2]

/-- C10 witness: the empty expansion evaluated at a concrete stub. -/
theorem more_fetch_empty_witness :
    more_fetch [] ("abc0") ("p1") ("c1") [.comment 9 []] [] = ([], []) :=
  more_fetch_empty [] ("abc0") ("p1") ("c1") [.comment 9 []] [] rfl
    (by decide)

/-! ## Traversal order specifications (C5)

For a forest with no `More` stub the two traversals are total.  The
depth-first visit order is the preorder listing; the breadth-first visit
order is the level-by-level listing.  Both are defined below as plain
recursive functions and related to the traversal machine. -/

theorem sizeL_append (a b : List CNode) :
    sizeL (a ++ b) = sizeL a + sizeL b := by
  induction a with
  | nil => simp [sizeL]
  | cons n t ih =>
    simp only [List.cons_append, sizeL_cons, ih]
    omega

/-- Preorder listing of comment ids: a node, then its reply subtree, then
its later siblings. -/
def preL : List CNode → List Nat
  | [] => []
  | .comment cid rs :: t => cid :: (preL rs ++ preL t)
  | .more _ _ :: t => preL t
termination_by l => sizeL l
decreasing_by
  all_goals simp only [sizeL_cons, sizeN]
  all_goals omega

/-- The comment ids at the top level of a forest. -/
def topIds : List CNode → List Nat
  | [] => []
  | .comment cid _ :: t => cid :: topIds t
  | .more _ _ :: t => topIds t

def childrenOf : CNode → List CNode
  | .comment _ rs => rs
  | .more _ _ => []

/-- All reply lists of the top-level nodes, concatenated: the next
generation of a forest. -/
def childJoin (f : List CNode) : List CNode := (f.map childrenOf).flatten

theorem sizeN_childrenOf (n : CNode) :
    sizeN n = 1 + sizeL (childrenOf n) := by
  cases n <;> simp [sizeN, childrenOf, sizeL]

theorem childJoin_cons (n : CNode) (t : List CNode) :
    childJoin (n :: t) = childrenOf n ++ childJoin t := by
  simp [childJoin]

theorem sizeL_childJoin (f : List CNode) :
    sizeL (childJoin f) + f.length = sizeL f := by
  induction f with
  | nil => rfl
  | cons n t ih =>
    rw [childJoin_cons, sizeL_append, sizeL_cons, sizeN_childrenOf n]
    simp only [List.length_cons]
    omega

/-- The level decomposition of a forest: top ids, then the levels of the
concatenated next generation. -/
def levels : List CNode → List (List Nat)
  | [] => []
  | n :: t => topIds (n :: t) :: levels (childJoin (n :: t))
termination_by f => sizeL f
decreasing_by
  · have h := sizeL_childJoin (n :: t)
    have h2 : 0 < (n :: t).length := by simp
    omega

/-- The comment ids at depth `d` of a forest. -/
def atDepth : Nat → List CNode → List Nat
  | 0, f => topIds f
  | d + 1, f => atDepth d (childJoin f)

def sizeW (work : List (List CNode)) : Nat := (work.map sizeL).sum

theorem sizeW_cons (l : List CNode) (rest : List (List CNode)) :
    sizeW (l :: rest) = sizeL l + sizeW rest := by
  simp [sizeW]

theorem sizeW_append1 (rest : List (List CNode)) (rs : List CNode) :
    sizeW (rest ++ [rs]) = sizeW rest + sizeL rs := by
  simp [sizeW]

/-- The breadth-first work loop on a FIFO list of sibling sequences,
oldest first: drain the head sequence, appending each nonempty reply list
at the back. -/
def bfSpec (work : List (List CNode)) : List Nat :=
  match work with
  | [] => []
  | [] :: rest => bfSpec rest
  | (.comment cid rs :: t) :: rest =>
      if rs.isEmpty = false then cid :: bfSpec (t :: (rest ++ [rs]))
      else cid :: bfSpec (t :: rest)
  | (.more _ _ :: t) :: rest => bfSpec (t :: rest)
termination_by 2 * sizeW work + work.length
decreasing_by
  all_goals simp only [sizeW_cons, sizeW_append1, sizeL_cons, sizeL, sizeN,
    List.length_cons, List.length_append, List.length_nil]
  all_goals omega

/-- Positionwise concatenation of two level listings. -/
def zipAll : List (List Nat) → List (List Nat) → List (List Nat)
  | [], ys => ys
  | x :: xs, [] => x :: xs
  | x :: xs, y :: ys => (x ++ y) :: zipAll xs ys

/-- No `More` stub anywhere in a forest. -/
def nmL : List CNode → Bool
  | [] => true
  | .comment _ rs :: t => nmL rs && nmL t
  | .more _ _ :: _ => false
termination_by l => sizeL l
decreasing_by
  all_goals simp only [sizeL_cons, sizeN]
  all_goals omega

/-- A node occurring anywhere in a forest: at the top level, or inside the
replies of an occurring comment. -/
inductive Occurs : CNode → List CNode → Prop where
  | top {n : CNode} {f : List CNode} : n ∈ f → Occurs n f
  | child {n : CNode} {cid : Nat} {rs f : List CNode} :
      Occurs (.comment cid rs) f → n ∈ rs → Occurs n f

/-! ### Unfolding lemmas for the traversal machine -/

theorem traverse_stop (mode : Mode) (md : Option Nat) (cur : TreeIter)
    (queue : List TreeIter) (hcur : cur.lst.get? cur.i = none)
    (hq : queue.getLast? = none) :
    traverse mode md cur queue = .ok [] := by
  rw [traverse.eq_def]
  split
  · split
    · rfl
    · rename_i q heq
      rw [hq] at heq
      cases heq
  · rename_i cid replies heq
    rw [hcur] at heq
    cases heq
  · rename_i children ident heq
    rw [hcur] at heq
    cases heq

theorem traverse_pop (mode : Mode) (md : Option Nat) (cur : TreeIter)
    (queue : List TreeIter) (q : TreeIter)
    (hcur : cur.lst.get? cur.i = none) (hq : queue.getLast? = some q) :
    traverse mode md cur queue = traverse mode md q queue.dropLast := by
  rw [traverse.eq_def]
  split
  · split
    · rename_i heq
      rw [hq] at heq
      cases heq
    · rename_i q2 heq
      rw [hq] at heq
      cases heq
      rfl
  · rename_i cid replies heq
    rw [hcur] at heq
    cases heq
  · rename_i children ident heq
    rw [hcur] at heq
    cases heq

theorem traverse_comment_df (md : Option Nat) (cur : TreeIter)
    (queue : List TreeIter) (cid : Nat) (replies : List CNode)
    (hcur : cur.lst.get? cur.i = some (.comment cid replies))
    (hbr : replies.isEmpty = false ∧ ltMaxDepth queue.length md = true) :
    traverse .df md cur queue =
      (traverse .df md ⟨replies, 0⟩
        (queue ++ [⟨cur.lst, cur.i + 1⟩])).map (fun v => cid :: v) := by
  rw [traverse.eq_def]
  split
  · rename_i heq
    rw [hcur] at heq
    cases heq
  · rename_i cid2 replies2 heq
    rw [hcur] at heq
    injection heq with h2
    injection h2 with h3 h4
    subst h3
    subst h4
    rw [dif_pos hbr]
  · rename_i children ident heq
    rw [hcur] at heq
    cases heq

theorem traverse_comment_bf (md : Option Nat) (cur : TreeIter)
    (queue : List TreeIter) (cid : Nat) (replies : List CNode)
    (hcur : cur.lst.get? cur.i = some (.comment cid replies))
    (hbr : replies.isEmpty = false ∧ ltMaxDepth queue.length md = true) :
    traverse .bf md cur queue =
      (traverse .bf md ⟨cur.lst, cur.i + 1⟩
        (⟨replies, 0⟩ :: queue)).map (fun v => cid :: v) := by
  rw [traverse.eq_def]
  split
  · rename_i heq
    rw [hcur] at heq
    cases heq
  · rename_i cid2 replies2 heq
    rw [hcur] at heq
    injection heq with h2
    injection h2 with h3 h4
    subst h3
    subst h4
    rw [dif_pos hbr]
  · rename_i children ident heq
    rw [hcur] at heq
    cases heq

theorem traverse_comment_skip (mode : Mode) (md : Option Nat)
    (cur : TreeIter) (queue : List TreeIter) (cid : Nat)
    (replies : List CNode)
    (hcur : cur.lst.get? cur.i = some (.comment cid replies))
    (hbr : ¬(replies.isEmpty = false ∧ ltMaxDepth queue.length md = true)) :
    traverse mode md cur queue =
      (traverse mode md ⟨cur.lst, cur.i + 1⟩ queue).map (fun v => cid :: v) := by
  rw [traverse.eq_def]
  split
  · rename_i heq
    rw [hcur] at heq
    cases heq
  · rename_i cid2 replies2 heq
    rw [hcur] at heq
    injection heq with h2
    injection h2 with h3 h4
    subst h3
    subst h4
    rw [dif_neg hbr]
  · rename_i children ident heq
    rw [hcur] at heq
    cases heq

theorem traverse_more (mode : Mode) (md : Option Nat) (cur : TreeIter)
    (queue : List TreeIter) (children : List String) (ident : String)
    (hcur : cur.lst.get? cur.i = some (.more children ident)) :
    traverse mode md cur queue = .error .attributeError := by
  rw [traverse.eq_def]
  split
  · rename_i heq
    rw [hcur] at heq
    cases heq
  · rename_i cid2 replies2 heq
    rw [hcur] at heq
    cases heq
  · rfl

/-! ### Supporting facts about no-stub forests and list bookkeeping -/

theorem nmL_mem_comment (l : List CNode) (cid : Nat) (rs : List CNode)
    (h : nmL l = true) (hm : (CNode.comment cid rs) ∈ l) : nmL rs = true := by
  induction l with
  | nil => cases hm
  | cons n t ih =>
    rcases List.mem_cons.mp hm with he | ht
    · subst he
      simp only [nmL, Bool.and_eq_true] at h
      exact h.1
    · cases n with
      | comment cid2 rs2 =>
        simp only [nmL, Bool.and_eq_true] at h
        exact ih h.2 ht
      | more ch id2 =>
        simp only [nmL] at h
        exact Bool.noConfusion h

theorem nmL_mem_more (l : List CNode) (ch : List String) (ident : String)
    (h : nmL l = true) (hm : (CNode.more ch ident) ∈ l) : False := by
  induction l with
  | nil => cases hm
  | cons n t ih =>
    rcases List.mem_cons.mp hm with he | ht
    · subst he
      simp only [nmL] at h
      exact Bool.noConfusion h
    · cases n with
      | comment cid2 rs2 =>
        simp only [nmL, Bool.and_eq_true] at h
        exact ih h.2 ht
      | more ch2 id2 =>
        simp only [nmL] at h
        exact Bool.noConfusion h

theorem drop_none {α : Type} (l : List α) (i : Nat) (h : l.get? i = none) :
    l.drop i = [] := by
  apply List.drop_eq_nil_of_le
  by_contra hlt
  push_neg at hlt
  rw [List.get?_eq_get hlt] at h
  cases h

theorem getLast?_none {α : Type} (l : List α) (h : l.getLast? = none) :
    l = [] := by
  cases l with
  | nil => rfl
  | cons a t =>
    have hne : a :: t ≠ [] := by simp
    rw [List.getLast?_eq_getLast _ hne] at h
    cases h

end Apyddit

namespace Apyddit

theorem traverse_df_pre (cur : TreeIter) (queue : List TreeIter)
    (hnm : nmL cur.lst = true) (hq : ∀ q ∈ queue, nmL q.lst = true) :
    traverse .df none cur queue =
      .ok (preL (cur.lst.drop cur.i) ++
        ((queue.map (fun q => preL (q.lst.drop q.i))).reverse).flatten) := by
  induction cur, queue using traverse.induct Mode.df none with
  | case1 cur queue hcur hq2 =>
    have h1 : cur.lst.drop cur.i = [] := drop_none _ _ hcur
    have h2 : queue = [] := getLast?_none _ hq2
    subst h2
    rw [traverse_stop .df none cur [] hcur rfl]
    simp [h1, preL]
  | case2 cur queue hcur q hq2 ih =>
    have hdec := getLast?_decomp queue q hq2
    have h1 : cur.lst.drop cur.i = [] := drop_none _ _ hcur
    have hqm : q ∈ queue := by
      rw [hdec]
      exact List.mem_append_right _ (by simp)
    have ihx := ih (hq q hqm)
      (fun q2 hq2m => hq q2 (by rw [hdec]; exact List.mem_append_left _ hq2m))
    rw [traverse_pop .df none cur queue q hcur hq2, ihx]
    conv_rhs => rw [hdec]
    rw [h1]
    simp [preL, List.map_append, List.reverse_append]
  | case3 cur queue cid replies hcur hbr hmode ih =>
    have hnmr : nmL replies = true :=
      nmL_mem_comment _ _ _ hnm (List.get?_mem hcur)
    have hqa : ∀ x ∈ queue ++ [(⟨cur.lst, cur.i + 1⟩ : TreeIter)], nmL x.lst = true := by
      intro x hx
      rcases List.mem_append.mp hx with h | h
      · exact hq x h
      · simp at h
        subst h
        exact hnm
    rw [traverse_comment_df none cur queue cid replies hcur hbr, ih hnmr hqa]
    have hdrop : cur.lst.drop cur.i = .comment cid replies :: cur.lst.drop (cur.i + 1) :=
      drop_get?_cons _ _ _ hcur
    rw [hdrop]
    simp [preL, Except.map, List.map_append, List.reverse_append]
  | case4 cur queue cid replies hcur hbr hmode ih =>
    exact Mode.noConfusion hmode
  | case5 cur queue cid replies hcur hbr ih =>
    have hrep : replies = [] := by
      by_cases he : replies.isEmpty = false
      · exact absurd ⟨he, rfl⟩ hbr
      · have : replies.isEmpty = true := by
          cases hie : replies.isEmpty
          · exact absurd hie he
          · rfl
        exact List.isEmpty_iff.mp this
    rw [traverse_comment_skip .df none cur queue cid replies hcur hbr, ih hnm hq]
    have hdrop : cur.lst.drop cur.i = .comment cid replies :: cur.lst.drop (cur.i + 1) :=
      drop_get?_cons _ _ _ hcur
    rw [hdrop, hrep]
    simp [preL, Except.map]
  | case6 cur queue children ident hcur =>
    exact (nmL_mem_more _ _ _ hnm (List.get?_mem hcur)).elim

end Apyddit

namespace Apyddit

theorem traverse_bf_spec (cur : TreeIter) (queue : List TreeIter)
    (hnm : nmL cur.lst = true) (hq : ∀ q ∈ queue, nmL q.lst = true) :
    traverse .bf none cur queue =
      .ok (bfSpec ((cur.lst.drop cur.i) ::
        (queue.map (fun q => q.lst.drop q.i)).reverse)) := by
  induction cur, queue using traverse.induct Mode.bf none with
  | case1 cur queue hcur hq2 =>
    have h1 : cur.lst.drop cur.i = [] := drop_none _ _ hcur
    have h2 : queue = [] := getLast?_none _ hq2
    subst h2
    rw [traverse_stop .bf none cur [] hcur rfl]
    simp [h1, bfSpec]
  | case2 cur queue hcur q hq2 ih =>
    have hdec := getLast?_decomp queue q hq2
    have h1 : cur.lst.drop cur.i = [] := drop_none _ _ hcur
    have hqm : q ∈ queue := by
      rw [hdec]
      exact List.mem_append_right _ (by simp)
    have ihx := ih (hq q hqm)
      (fun q2 hq2m => hq q2 (by rw [hdec]; exact List.mem_append_left _ hq2m))
    rw [traverse_pop .bf none cur queue q hcur hq2, ihx]
    conv_rhs => rw [hdec]
    rw [h1]
    simp [bfSpec, List.map_append, List.reverse_append]
  | case3 cur queue cid replies hcur hbr hmode ih =>
    exact Mode.noConfusion hmode
  | case4 cur queue cid replies hcur hbr hmode ih =>
    have hnmr : nmL replies = true :=
      nmL_mem_comment _ _ _ hnm (List.get?_mem hcur)
    have hqa : ∀ x ∈ (⟨replies, 0⟩ : TreeIter) :: queue, nmL x.lst = true := by
      intro x hx
      rcases List.mem_cons.mp hx with h | h
      · subst h
        exact hnmr
      · exact hq x h
    rw [traverse_comment_bf none cur queue cid replies hcur hbr, ih hnm hqa]
    have hdrop : cur.lst.drop cur.i = .comment cid replies :: cur.lst.drop (cur.i + 1) :=
      drop_get?_cons _ _ _ hcur
    rw [hdrop]
    simp [bfSpec, hbr.1, Except.map]
  | case5 cur queue cid replies hcur hbr ih =>
    have hrep : replies = [] := by
      by_cases he : replies.isEmpty = false
      · exact absurd ⟨he, rfl⟩ hbr
      · have : replies.isEmpty = true := by
          cases hie : replies.isEmpty
          · exact absurd hie he
          · rfl
        exact List.isEmpty_iff.mp this
    rw [traverse_comment_skip .bf none cur queue cid replies hcur hbr, ih hnm hq]
    have hdrop : cur.lst.drop cur.i = .comment cid replies :: cur.lst.drop (cur.i + 1) :=
      drop_get?_cons _ _ _ hcur
    rw [hdrop, hrep]
    simp [bfSpec, Except.map]
  | case6 cur queue children ident hcur =>
    exact (nmL_mem_more _ _ _ hnm (List.get?_mem hcur)).elim

end Apyddit

namespace Apyddit

/-- The nonempty reply lists of the top-level nodes, in order: exactly the
sequences the breadth-first loop appends to its work list while draining
one sequence. -/
def neChildLists : List CNode → List (List CNode)
  | [] => []
  | .comment _ rs :: t =>
      if rs.isEmpty = false then rs :: neChildLists t else neChildLists t
  | .more _ _ :: t => neChildLists t

theorem bfSpec_drain (l : List CNode) :
    ∀ W, bfSpec (l :: W) = topIds l ++ bfSpec (W ++ neChildLists l) := by
  induction l with
  | nil =>
    intro W
    simp [bfSpec, topIds, neChildLists]
  | cons n t ih =>
    intro W
    cases n with
    | comment cid rs =>
      by_cases he : rs.isEmpty = false
      · rw [show bfSpec ((CNode.comment cid rs :: t) :: W) =
            cid :: bfSpec (t :: (W ++ [rs])) from by simp [bfSpec, he]]
        rw [ih (W ++ [rs])]
        simp [topIds, neChildLists, he, List.append_assoc]
      · rw [show bfSpec ((CNode.comment cid rs :: t) :: W) =
            cid :: bfSpec (t :: W) from by simp [bfSpec, he]]
        rw [ih W]
        simp [topIds, neChildLists, he]
    | more ch ident =>
      rw [show bfSpec ((CNode.more ch ident :: t) :: W) =
          bfSpec (t :: W) from by simp [bfSpec]]
      rw [ih W]
      simp [topIds, neChildLists]

theorem neChildLists_flatten (l : List CNode) :
    (neChildLists l).flatten = childJoin l := by
  induction l with
  | nil => simp [neChildLists, childJoin]
  | cons n t ih =>
    cases n with
    | comment cid rs =>
      rw [childJoin_cons]
      by_cases he : rs.isEmpty = false
      · simp [neChildLists, he, childrenOf, ih]
      · have hrs : rs = [] := by
          cases hie : rs.isEmpty
          · exact absurd hie he
          · exact List.isEmpty_iff.mp hie
        simp [neChildLists, he, childrenOf, ih, hrs]
    | more ch ident =>
      rw [childJoin_cons]
      simp [neChildLists, childrenOf, ih]

theorem neChildLists_length (l : List CNode) :
    (neChildLists l).length ≤ l.length := by
  induction l with
  | nil => simp [neChildLists]
  | cons n t ih =>
    cases n with
    | comment cid rs =>
      by_cases he : rs.isEmpty = false <;>
        simp [neChildLists, he] <;> omega
    | more ch ident =>
      simp [neChildLists]
      omega

theorem sizeW_append (a b : List (List CNode)) :
    sizeW (a ++ b) = sizeW a + sizeW b := by
  simp [sizeW]

theorem sizeW_flatten (W : List (List CNode)) :
    sizeW W = sizeL W.flatten := by
  induction W with
  | nil => rfl
  | cons l t ih =>
    rw [sizeW_cons, List.flatten_cons, sizeL_append, ih]

theorem sizeL_eq_zero (l : List CNode) (h : sizeL l = 0) : l = [] := by
  cases l with
  | nil => rfl
  | cons n t =>
    rw [sizeL_cons] at h
    have := sizeN_pos n
    omega

theorem topIds_append (a b : List CNode) :
    topIds (a ++ b) = topIds a ++ topIds b := by
  induction a with
  | nil => simp [topIds]
  | cons n t ih =>
    cases n <;> simp [topIds, ih]

theorem childJoin_append (a b : List CNode) :
    childJoin (a ++ b) = childJoin a ++ childJoin b := by
  simp [childJoin]

theorem levels_cons_eq (n : CNode) (t : List CNode) :
    levels (n :: t) = topIds (n :: t) :: levels (childJoin (n :: t)) := by
  simp [levels]

theorem levels_append_aux :
    ∀ k a b, sizeL (a ++ b) ≤ k →
      levels (a ++ b) = zipAll (levels a) (levels b) := by
  intro k
  induction k with
  | zero =>
    intro a b h
    have ha : a = [] := by
      apply sizeL_eq_zero
      rw [sizeL_append] at h
      omega
    have hb : b = [] := by
      apply sizeL_eq_zero
      rw [sizeL_append] at h
      omega
    subst ha
    subst hb
    simp [levels, zipAll]
  | succ k ihk =>
    intro a b h
    cases a with
    | nil => simp [zipAll, levels]
    | cons na ta =>
      cases b with
      | nil =>
        rw [List.append_nil, levels_cons_eq,
          show zipAll (topIds (na :: ta) :: levels (childJoin (na :: ta))) (levels []) =
            topIds (na :: ta) :: levels (childJoin (na :: ta)) from by
              simp [levels, zipAll]]
      | cons nb tb =>
        have h1 : (na :: ta) ++ nb :: tb = na :: (ta ++ nb :: tb) := rfl
        rw [h1, levels_cons_eq, ← h1]
        rw [topIds_append, childJoin_append]
        have hsz : sizeL (childJoin (na :: ta) ++ childJoin (nb :: tb)) ≤ k := by
          have e1 := sizeL_childJoin (na :: ta)
          have e2 := sizeL_childJoin (nb :: tb)
          rw [sizeL_append] at h ⊢
          have l1 : 0 < (na :: ta).length := by simp
          have l2 : 0 < (nb :: tb).length := by simp
          omega
        rw [ihk _ _ hsz, levels_cons_eq, levels_cons_eq]
        rfl

theorem levels_append (a b : List CNode) :
    levels (a ++ b) = zipAll (levels a) (levels b) :=
  levels_append_aux (sizeL (a ++ b)) a b le_rfl

theorem flatten_zipAll_cons_aux :
    ∀ k (X Y : List (List Nat)) (x : List Nat), X.length + Y.length ≤ k →
      (zipAll (x :: X) Y).flatten = x ++ (zipAll Y X).flatten := by
  intro k
  induction k with
  | zero =>
    intro X Y x h
    have hx : X = [] := List.length_eq_zero.mp (by omega)
    have hy : Y = [] := List.length_eq_zero.mp (by omega)
    subst hx
    subst hy
    simp [zipAll]
  | succ k ihk =>
    intro X Y x h
    cases Y with
    | nil => simp [zipAll]
    | cons y Y2 =>
      rw [show zipAll (x :: X) (y :: Y2) = (x ++ y) :: zipAll X Y2 from rfl]
      have hswap : (zipAll (y :: Y2) X).flatten = y ++ (zipAll X Y2).flatten := by
        apply ihk Y2 X y
        simp at h
        omega
      rw [List.flatten_cons, hswap, List.append_assoc]

theorem flatten_zipAll_cons (X Y : List (List Nat)) (x : List Nat) :
    (zipAll (x :: X) Y).flatten = x ++ (zipAll Y X).flatten :=
  flatten_zipAll_cons_aux (X.length + Y.length) X Y x le_rfl

theorem bfSpec_eq_levels_aux :
    ∀ k W, 2 * sizeW W + W.length ≤ k →
      bfSpec W = (levels W.flatten).flatten := by
  intro k
  induction k with
  | zero =>
    intro W h
    have hw : W = [] := List.length_eq_zero.mp (by omega)
    subst hw
    simp [bfSpec, levels]
  | succ k ihk =>
    intro W h
    cases W with
    | nil => simp [bfSpec, levels]
    | cons l rest =>
      rw [bfSpec_drain l rest]
      cases l with
      | nil =>
        have hr : bfSpec (rest ++ neChildLists []) = bfSpec rest := by
          simp [neChildLists]
        have h0 : sizeL ([] : List CNode) = 0 := by simp [sizeL]
        have hb : 2 * sizeW rest + rest.length ≤ k := by
          rw [sizeW_cons, h0] at h
          simp only [List.length_cons] at h
          omega
        rw [hr, ihk rest hb]
        have h1 : (([] : List CNode) :: rest).flatten = rest.flatten := by simp
        rw [h1]
        simp [topIds]
      | cons n t =>
        have hsz : 2 * sizeW (rest ++ neChildLists (n :: t)) +
            (rest ++ neChildLists (n :: t)).length ≤ k := by
          rw [sizeW_append, List.length_append]
          have e1 : sizeW (neChildLists (n :: t)) = sizeL (childJoin (n :: t)) := by
            rw [sizeW_flatten, neChildLists_flatten]
          have e2 := sizeL_childJoin (n :: t)
          have e3 := neChildLists_length (n :: t)
          rw [sizeW_cons] at h
          have l1 : 0 < (n :: t).length := by simp
          simp only [List.length_cons] at h e2 e3 ⊢
          omega
        rw [ihk _ hsz]
        rw [show (((n :: t) :: rest).flatten : List CNode) =
          (n :: t) ++ rest.flatten from rfl]
        rw [levels_append (n :: t) rest.flatten, levels_cons_eq,
          flatten_zipAll_cons, List.flatten_append, neChildLists_flatten,
          levels_append]

end Apyddit

namespace Apyddit

theorem preL_append (a b : List CNode) :
    preL (a ++ b) = preL a ++ preL b := by
  induction a with
  | nil => simp [preL]
  | cons n t ih =>
    cases n with
    | comment cid rs =>
      simp [preL, ih]
    | more ch ident =>
      simp [preL, ih]

theorem perm_top_child (f : List CNode) :
    (topIds f ++ preL (childJoin f)).Perm (preL f) := by
  induction f with
  | nil => simp [topIds, childJoin, preL]
  | cons n t ih =>
    cases n with
    | comment cid rs =>
      rw [childJoin_cons]
      show (((cid :: topIds t) : List Nat) ++ preL (childrenOf (.comment cid rs) ++ childJoin t)).Perm
        (preL (.comment cid rs :: t))
      rw [show childrenOf (CNode.comment cid rs) = rs from rfl, preL_append]
      rw [show preL (CNode.comment cid rs :: t) = cid :: (preL rs ++ preL t) from by simp [preL]]
      rw [show ((cid :: topIds t) : List Nat) ++ (preL rs ++ preL (childJoin t)) =
        cid :: (topIds t ++ (preL rs ++ preL (childJoin t))) from rfl]
      apply List.Perm.cons
      refine (List.perm_append_comm_assoc _ _ _).trans ?_
      exact List.Perm.append_left _ ih
    | more ch ident =>
      rw [childJoin_cons]
      rw [show childrenOf (CNode.more ch ident) = [] from rfl]
      rw [show topIds (CNode.more ch ident :: t) = topIds t from by simp [topIds]]
      rw [show preL (CNode.more ch ident :: t) = preL t from by simp [preL]]
      simpa using ih

theorem levels_flatten_perm_pre :
    ∀ k f, sizeL f ≤ k → ((levels f).flatten).Perm (preL f) := by
  intro k
  induction k with
  | zero =>
    intro f h
    have hf : f = [] := sizeL_eq_zero f (by omega)
    subst hf
    simp [levels, preL]
  | succ k ihk =>
    intro f h
    cases f with
    | nil => simp [levels, preL]
    | cons n t =>
      rw [levels_cons_eq, List.flatten_cons]
      have hsz : sizeL (childJoin (n :: t)) ≤ k := by
        have := sizeL_childJoin (n :: t)
        have : 0 < (n :: t).length := by simp
        omega
      refine (List.Perm.append_left _ (ihk _ hsz)).trans ?_
      exact perm_top_child (n :: t)

end Apyddit

namespace Apyddit

theorem mem_pre_infix (n : CNode) (f : List CNode) (h : n ∈ f) :
    ∃ s t, preL f = s ++ preL [n] ++ t := by
  induction f with
  | nil => cases h
  | cons a ta ih =>
    rcases List.mem_cons.mp h with he | ht
    · subst he
      refine ⟨[], preL ta, ?_⟩
      rw [show (n :: ta) = [n] ++ ta from rfl, preL_append]
      simp
    · obtain ⟨s, t, hst⟩ := ih ht
      refine ⟨preL [a] ++ s, t, ?_⟩
      rw [show (a :: ta) = [a] ++ ta from rfl, preL_append, hst]
      simp [List.append_assoc]

theorem preL_single_comment (cid : Nat) (rs : List CNode) :
    preL [CNode.comment cid rs] = cid :: preL rs := by
  simp [preL]

theorem occurs_pre_infix (n : CNode) (f : List CNode) (h : Occurs n f) :
    ∃ s t, preL f = s ++ preL [n] ++ t := by
  induction h with
  | top hm => exact mem_pre_infix _ _ hm
  | @child n2 cid rs f2 hpar hm ih =>
    obtain ⟨s, t, hst⟩ := ih
    obtain ⟨s2, t2, hst2⟩ := mem_pre_infix _ _ hm
    refine ⟨s ++ cid :: s2, t2 ++ t, ?_⟩
    rw [hst, preL_single_comment, hst2]
    simp [List.append_assoc]

theorem occurs_first_child (f : List CNode) (cid cid0 : Nat)
    (rs0 cs : List CNode)
    (h : Occurs (.comment cid (.comment cid0 rs0 :: cs)) f) :
    ∃ i, (preL f).get? i = some cid ∧ (preL f).get? (i + 1) = some cid0 := by
  obtain ⟨s, t, hst⟩ := occurs_pre_infix _ _ h
  have hx : preL [CNode.comment cid (.comment cid0 rs0 :: cs)] =
      cid :: cid0 :: (preL rs0 ++ preL cs) := by
    simp [preL]
  rw [hx] at hst
  refine ⟨s.length, ?_, ?_⟩
  · rw [hst, List.append_assoc, List.get?_append_right (le_refl _)]
    simp
  · rw [hst, List.append_assoc,
      List.get?_append_right (by omega : s.length ≤ s.length + 1)]
    have h1 : s.length + 1 - s.length = 1 := by omega
    rw [h1]
    simp

theorem atDepth_nil (d : Nat) : atDepth d [] = [] := by
  induction d with
  | zero => rfl
  | succ d ih =>
    rw [show atDepth (d + 1) ([] : List CNode) = atDepth d (childJoin []) from rfl,
      show childJoin [] = [] from rfl]
    exact ih

theorem levels_getD (d : Nat) (f : List CNode) :
    (levels f).getD d [] = atDepth d f := by
  induction d generalizing f with
  | zero =>
    cases f with
    | nil => simp [levels, atDepth, topIds]
    | cons n t =>
      rw [levels_cons_eq]
      simp [atDepth]
  | succ d ih =>
    cases f with
    | nil => simp [levels, atDepth_nil]
    | cons n t =>
      rw [levels_cons_eq]
      simp only [List.getD_cons_succ]
      rw [ih]
      rfl

theorem mem_getD_flatten {L : List (List Nat)} {d : Nat} {b : Nat}
    (h : b ∈ L.getD d []) : b ∈ L.flatten := by
  induction L generalizing d with
  | nil => simp at h
  | cons x t ih =>
    cases d with
    | zero =>
      simp only [List.getD_cons_zero] at h
      simp only [List.flatten_cons, List.mem_append]
      exact Or.inl h
    | succ d =>
      simp only [List.getD_cons_succ] at h
      simp only [List.flatten_cons, List.mem_append]
      exact Or.inr (ih h)

theorem flatten_getD_indexOf_lt (L : List (List Nat))
    (hnd : L.flatten.Nodup) (d : Nat) (a b : Nat)
    (ha : a ∈ L.getD d []) (hb : b ∈ L.getD (d + 1) []) :
    L.flatten.indexOf a < L.flatten.indexOf b := by
  induction L generalizing d with
  | nil => simp at ha
  | cons x t ih =>
    rw [List.flatten_cons] at hnd ⊢
    cases d with
    | zero =>
      simp only [List.getD_cons_zero] at ha
      simp only [List.getD_cons_succ] at hb
      have hbj : b ∈ t.flatten := mem_getD_flatten hb
      have hdisj := List.disjoint_of_nodup_append hnd
      have hbx : b ∉ x := fun hbx => hdisj hbx hbj
      rw [List.indexOf_append_of_mem ha, List.indexOf_append_of_not_mem hbx]
      have := List.indexOf_lt_length.mpr ha
      omega
    | succ d =>
      simp only [List.getD_cons_succ] at ha hb
      have haj : a ∈ t.flatten := mem_getD_flatten ha
      have hbj : b ∈ t.flatten := mem_getD_flatten hb
      have hdisj := List.disjoint_of_nodup_append hnd
      have hax : a ∉ x := fun h2 => hdisj h2 haj
      have hbx : b ∉ x := fun h2 => hdisj h2 hbj
      rw [List.indexOf_append_of_not_mem hax, List.indexOf_append_of_not_mem hbx]
      have hnd2 : t.flatten.Nodup := (List.nodup_append.mp hnd).2.1
      have := ih hnd2 d ha hb
      omega

end Apyddit

namespace Apyddit

/-- C5: on a comment tree containing no More stub (distinct ids standing
in for object identity), the depth-first traversal succeeds and visits
exactly the preorder listing, the breadth-first traversal succeeds and
visits the level-by-level listing, the two visit the same comments — each
reachable comment exactly once, the two orders being permutations of one
another — depth-first visits a node's first child immediately after the
node, and breadth-first visits every node at depth N before any node at
depth N+1. -/
theorem df_bf_traversal_spec (f : List CNode) (hnm : nmL f = true)
    (hnd : (preL f).Nodup) :
    depthFirst none f = .ok (preL f) ∧
    breadthFirst none f = .ok ((levels f).flatten) ∧
    ((levels f).flatten).Perm (preL f) ∧
    (∀ cid cid0 rs0 cs, Occurs (.comment cid (.comment cid0 rs0 :: cs)) f →
      ∃ i, (preL f).get? i = some cid ∧ (preL f).get? (i + 1) = some cid0) ∧
    (∀ d a b, a ∈ atDepth d f → b ∈ atDepth (d + 1) f →
      ((levels f).flatten).indexOf a < ((levels f).flatten).indexOf b) := by
  have hdf : depthFirst none f = .ok (preL f) := by
    have h1 := traverse_df_pre ⟨f, 0⟩ [] hnm (by intro q hq; cases hq)
    simpa [depthFirst] using h1
  have hbf : breadthFirst none f = .ok ((levels f).flatten) := by
    have h1 := traverse_bf_spec ⟨f, 0⟩ [] hnm (by intro q hq; cases hq)
    have h2 : bfSpec [f] = (levels f).flatten := by
      have h3 := bfSpec_eq_levels_aux (2 * sizeW [f] + 1) [f] (by simp)
      rw [h3]
      simp
    rw [breadthFirst]
    rw [show (⟨f, 0⟩ : TreeIter).lst.drop (⟨f, 0⟩ : TreeIter).i = f from rfl] at h1
    simp only [List.map_nil, List.reverse_nil] at h1
    rw [h1, h2]
  have hperm : ((levels f).flatten).Perm (preL f) :=
    levels_flatten_perm_pre (sizeL f) f le_rfl
  refine ⟨hdf, hbf, hperm, ?_, ?_⟩
  · intro cid cid0 rs0 cs hocc
    exact occurs_first_child f cid cid0 rs0 cs hocc
  · intro d a b ha hb
    have hndf : ((levels f).flatten).Nodup := hperm.nodup_iff.mpr hnd
    have ha2 : a ∈ (levels f).getD d [] := by
      rw [levels_getD]
      exact ha
    have hb2 : b ∈ (levels f).getD (d + 1) [] := by
      rw [levels_getD]
      exact hb
    exact flatten_getD_indexOf_lt (levels f) hndf d a b ha2 hb2

def c5tree : List CNode :=
  [.comment 1 [.comment 2 [], .comment 3 []], .comment 4 []]

/-- C5 witness: the traversal specification evaluated on a concrete
two-level tree: depth-first yields the preorder, breadth-first the level
order, comment 2 follows its parent 1 immediately in depth-first order,
and depth-0 node 4 precedes depth-1 node 2 in breadth-first order. -/
theorem df_bf_traversal_spec_witness :
    depthFirst none c5tree = .ok (preL c5tree) ∧
    breadthFirst none c5tree = .ok ((levels c5tree).flatten) ∧
    (∃ i, (preL c5tree).get? i = some 1 ∧ (preL c5tree).get? (i + 1) = some 2) ∧
    ((levels c5tree).flatten).indexOf 4 < ((levels c5tree).flatten).indexOf 2 := by
  have hnm : nmL c5tree = true := by simp [c5tree, nmL]
  have hpre : preL c5tree = [1, 2, 3, 4] := by simp [c5tree, preL]
  have hnd : (preL c5tree).Nodup := by
    rw [hpre]
    decide
  refine ⟨(df_bf_traversal_spec c5tree hnm hnd).1,
    (df_bf_traversal_spec c5tree hnm hnd).2.1,
    (df_bf_traversal_spec c5tree hnm hnd).2.2.2.1 1 2 [] [.comment 3 []]
      (Occurs.top (List.mem_cons_self _ _)),
    (df_bf_traversal_spec c5tree hnm hnd).2.2.2.2 0 4 2 ?_ ?_⟩
  · show (4 : Nat) ∈ atDepth 0 c5tree
    simp [c5tree, atDepth, topIds]
  · show (2 : Nat) ∈ atDepth 1 c5tree
    simp [c5tree, atDepth, topIds, childJoin, childrenOf]

end Apyddit
